import Mathlib

/-!
Verification development for the crypto-accounts multi-chain HD-wallet core
(`crypto-lib`): a shallow embedding in Lean 4 of the SLIP-10 Ed25519 deriver,
the derivation-path parser, and the Bech32 codec, as implemented in
`src/crypto-lib/src/solana/mod.rs`, `src/crypto-lib/src/sui/mod.rs` and
`src/crypto-lib/src/cosmos/mod.rs`, together with theorems settling the
frozen specification claims.

Bytes are modelled as `Nat` with explicit `% 2^w` where Rust machine
arithmetic wraps; Rust strings are modelled as `List Char`; Rust
`Result<_, String>` is modelled as `Except String _`.
-/

/-! ## Models of the Rust standard-library functions used by the source -/

/-- The Unicode `White_Space` code points: exactly the characters for which
Rust's `char::is_whitespace` (used by `str::trim`) returns true. -/
def rustWhitespaceCodes : List Nat :=
  [0x09, 0x0A, 0x0B, 0x0C, 0x0D, 0x20, 0x85, 0xA0, 0x1680,
   0x2000, 0x2001, 0x2002, 0x2003, 0x2004, 0x2005, 0x2006, 0x2007,
   0x2008, 0x2009, 0x200A, 0x2028, 0x2029, 0x202F, 0x205F, 0x3000]

/-- Model of Rust `char::is_whitespace`. -/
def rustIsWhitespace (c : Char) : Bool :=
  rustWhitespaceCodes.contains c.toNat

/-- Model of Rust `str::trim_start`. -/
def trimStart (s : List Char) : List Char :=
  s.dropWhile rustIsWhitespace

/-- Model of Rust `str::trim_end`. -/
def trimEnd (s : List Char) : List Char :=
  (s.reverse.dropWhile rustIsWhitespace).reverse

/-- Model of Rust `str::trim` (strip leading and trailing whitespace). -/
def rustTrim (s : List Char) : List Char :=
  trimEnd (trimStart s)

/-- Model of Rust `str::split(sep).collect::<Vec<_>>()`: split on every
occurrence of `sep`; `n` separators yield `n + 1` (possibly empty) parts. -/
def splitOnChar (sep : Char) : List Char → List (List Char)
  | [] => [[]]
  | c :: cs =>
    if c = sep then [] :: splitOnChar sep cs
    else
      match splitOnChar sep cs with
      | [] => [[c]]
      | r :: rs => (c :: r) :: rs

/-- Model of Rust `str::trim_end_matches(m)`: remove every trailing
occurrence of the character `m` (not just one). -/
def dropEndMatches (m : Char) (s : List Char) : List Char :=
  (s.reverse.dropWhile (fun c => c = m)).reverse

/-- Model of Rust `str::starts_with(c)` for a single character. -/
def startsWithChar (s : List Char) (c : Char) : Bool :=
  match s with
  | [] => false
  | x :: _ => x = c

/-- Decimal value of a digit string (big-endian fold, `'0'` has code 48). -/
def digitsVal (s : List Char) : Nat :=
  s.foldl (fun a c => a * 10 + (c.toNat - 48)) 0

/-- ASCII digit test (code points 48–57), as Rust integer parsing uses. -/
def isAsciiDigit (c : Char) : Bool :=
  decide (48 ≤ c.toNat ∧ c.toNat ≤ 57)

/-- Model of Rust `str::parse::<u32>()`: an optional leading `'+'`, then a
non-empty run of ASCII digits; any other character or a value at or above
`2^32` (overflow) is a parse error. -/
def parseU32 (s : List Char) : Option Nat :=
  let digits := if s.head? = some '+' then s.tail else s
  if digits.isEmpty then none
  else if digits.all isAsciiDigit then
    if digitsVal digits < 2 ^ 32 then some (digitsVal digits) else none
  else none

/-- Big-endian byte rendering of `x` on exactly `n` bytes (the model of
`u32::to_be_bytes` is `beBytes 4`, which truncates to `x % 2^32`). -/
def beBytes : Nat → Nat → List Nat
  | 0, _ => []
  | n + 1, x => beBytes n (x / 256) ++ [x % 256]

/-! ## SHA-512 and HMAC-SHA512

Modelled from the spec: the `sha2` and `hmac` crates used by the source are
external collaborators (spec §1 lists the SHA-512 primitive as out of
scope, consumed as a fixed-contract function); they are modelled here as
the standard FIPS 180-4 SHA-512 and RFC 2104 HMAC over it, on byte lists,
with 64-bit words as `Nat` reduced `% 2^64`. -/

/-- Right rotation of a 64-bit word. -/
def rotr64 (x n : Nat) : Nat :=
  (x >>> n) ||| ((x <<< (64 - n)) % 2 ^ 64)

/-- The 80 SHA-512 round constants. -/
def shaK : List Nat :=
  [4794697086780616226, 8158064640168781261, 13096744586834688815, 16840607885511220156,
   4131703408338449720, 6480981068601479193, 10538285296894168987, 12329834152419229976,
   15566598209576043074, 1334009975649890238, 2608012711638119052, 6128411473006802146,
   8268148722764581231, 9286055187155687089, 11230858885718282805, 13951009754708518548,
   16472876342353939154, 17275323862435702243, 1135362057144423861, 2597628984639134821,
   3308224258029322869, 5365058923640841347, 6679025012923562964, 8573033837759648693,
   10970295158949994411, 12119686244451234320, 12683024718118986047, 13788192230050041572,
   14330467153632333762, 15395433587784984357, 489312712824947311, 1452737877330783856,
   2861767655752347644, 3322285676063803686, 5560940570517711597, 5996557281743188959,
   7280758554555802590, 8532644243296465576, 9350256976987008742, 10552545826968843579,
   11727347734174303076, 12113106623233404929, 14000437183269869457, 14369950271660146224,
   15101387698204529176, 15463397548674623760, 17586052441742319658, 1182934255886127544,
   1847814050463011016, 2177327727835720531, 2830643537854262169, 3796741975233480872,
   4115178125766777443, 5681478168544905931, 6601373596472566643, 7507060721942968483,
   8399075790359081724, 8693463985226723168, 9568029438360202098, 10144078919501101548,
   10430055236837252648, 11840083180663258601, 13761210420658862357, 14299343276471374635,
   14566680578165727644, 15097957966210449927, 16922976911328602910, 17689382322260857208,
   500013540394364858, 748580250866718886, 1242879168328830382, 1977374033974150939,
   2944078676154940804, 3659926193048069267, 4368137639120453308, 4836135668995329356,
   5532061633213252278, 6448918945643986474, 6902733635092675308, 7801388544844847127]

/-- The SHA-512 initial hash value (eight 64-bit words). -/
def shaH0 : List Nat :=
  [7640891576956012808, 13503953896175478587, 4354685564936845355, 11912009170470909681,
   5840696475078001361, 11170449401992604703, 2270897969802886507, 6620516959819538809]

/-- Big-endian 64-bit word from a byte list. -/
def toWordBE (bs : List Nat) : Nat :=
  bs.foldl (fun a b => a * 256 + b) 0

/-- The sixteen 64-bit words of one 128-byte chunk. -/
def chunkWords (chunk : List Nat) : List Nat :=
  (List.range 16).map (fun i => toWordBE ((chunk.drop (8 * i)).take 8))

/-- One message-schedule extension step: append word `t` computed from
words `t-2`, `t-7`, `t-15`, `t-16`. -/
def scheduleStep (ws : List Nat) : List Nat :=
  let t := ws.length
  let w15 := ws.getD (t - 15) 0
  let w2 := ws.getD (t - 2) 0
  let s0 := rotr64 w15 1 ^^^ rotr64 w15 8 ^^^ (w15 >>> 7)
  let s1 := rotr64 w2 19 ^^^ rotr64 w2 61 ^^^ (w2 >>> 6)
  ws ++ [(ws.getD (t - 16) 0 + s0 + ws.getD (t - 7) 0 + s1) % 2 ^ 64]

/-- Iterate the message-schedule extension `n` times. -/
def schedule (ws : List Nat) : Nat → List Nat
  | 0 => ws
  | n + 1 => scheduleStep (schedule ws n)

/-- The eight working variables of the SHA-512 compression function. -/
structure Sha512State where
  a : Nat
  b : Nat
  c : Nat
  d : Nat
  e : Nat
  f : Nat
  g : Nat
  h : Nat

/-- One SHA-512 compression round with round constant and schedule word. -/
def shaRound (st : Sha512State) (kw : Nat × Nat) : Sha512State :=
  let S1 := rotr64 st.e 14 ^^^ rotr64 st.e 18 ^^^ rotr64 st.e 41
  let ch := (st.e &&& st.f) ^^^ (((2 ^ 64 - 1) ^^^ st.e) &&& st.g)
  let t1 := (st.h + S1 + ch + kw.1 + kw.2) % 2 ^ 64
  let S0 := rotr64 st.a 28 ^^^ rotr64 st.a 34 ^^^ rotr64 st.a 39
  let mj := (st.a &&& st.b) ^^^ (st.a &&& st.c) ^^^ (st.b &&& st.c)
  let t2 := (S0 + mj) % 2 ^ 64
  ⟨(t1 + t2) % 2 ^ 64, st.a, st.b, st.c, (st.d + t1) % 2 ^ 64, st.e, st.f, st.g⟩

/-- Compress one 128-byte chunk into the running hash (eight words). -/
def sha512Compress (hs : List Nat) (chunk : List Nat) : List Nat :=
  let W := schedule (chunkWords chunk) 64
  let init : Sha512State :=
    ⟨hs.getD 0 0, hs.getD 1 0, hs.getD 2 0, hs.getD 3 0,
     hs.getD 4 0, hs.getD 5 0, hs.getD 6 0, hs.getD 7 0⟩
  let st := (shaK.zip W).foldl shaRound init
  List.zipWith (fun x y => (x + y) % 2 ^ 64) hs
    [st.a, st.b, st.c, st.d, st.e, st.f, st.g, st.h]

/-- SHA-512 padding: `0x80`, zeros, then the 128-bit big-endian bit length,
to a multiple of 128 bytes. -/
def sha512Pad (m : List Nat) : List Nat :=
  let padLen := (128 - ((m.length + 17) % 128)) % 128
  m ++ [0x80] ++ List.replicate padLen 0 ++ beBytes 16 (8 * m.length)

/-- Split a byte list into 128-byte chunks. -/
def chunks128 (l : List Nat) : List (List Nat) :=
  if h : l = [] then []
  else l.take 128 :: chunks128 (l.drop 128)
termination_by l.length
decreasing_by
  simp only [List.length_drop]
  have : l.length ≠ 0 := fun hl => h (List.eq_nil_of_length_eq_zero hl)
  omega

/-- SHA-512 of a byte list: 64 output bytes. -/
def sha512 (m : List Nat) : List Nat :=
  let hs := (chunks128 (sha512Pad m)).foldl sha512Compress shaH0
  (hs.map (beBytes 8)).flatten

/-- HMAC-SHA512 (RFC 2104) with block size 128 bytes. -/
def hmacSha512 (key msg : List Nat) : List Nat :=
  let k := if key.length > 128 then sha512 key else key
  let k0 := k ++ List.replicate (128 - k.length) 0
  let ipadded := k0.map (fun b => b ^^^ 0x36)
  let opadded := k0.map (fun b => b ^^^ 0x5c)
  sha512 (opadded ++ sha512 (ipadded ++ msg))

/-! ## `src/crypto-lib/src/solana/mod.rs` -/

namespace Solana

/-- Solana default derivation path (`SOLANA_PATH`). -/
def SOLANA_PATH : List Char := "m/44\x27/501\x27/0\x27/0\x27".toList

/-- The HMAC key of the SLIP-10 master step: the Rust byte literal
`b"ed25519 seed"`. -/
def ed25519_seed_key : List Nat := "ed25519 seed".toList.map Char.toNat

/-- `slip10_master_key`: `HMAC-SHA512(key = b"ed25519 seed", data = seed)`;
first 32 bytes are the key, last 32 the chain code.  The Rust error branch
(HMAC construction failure) is unreachable for HMAC, which accepts every
key length, so the embedding always returns `ok`. -/
def slip10_master_key (seed : List Nat) : Except String (List Nat × List Nat) :=
  let result := hmacSha512 ed25519_seed_key seed
  Except.ok (result.take 32, result.drop 32)

/-- `slip10_derive_child`: hardened-only SLIP-10 child step.  The index is
forced hardened with `| 0x80000000`; the HMAC message is
`0x00 ‖ parent_key ‖ be_u32(hardened_index)` keyed by the parent chain
code; the 64 output bytes split into child key and child chain code. -/
def slip10_derive_child (parent_key parent_chain_code : List Nat)
    (index : Nat) : Except String (List Nat × List Nat) :=
  let hardened_index := index ||| 0x80000000
  let data := [0x00] ++ parent_key ++ beBytes 4 hardened_index
  let result := hmacSha512 parent_chain_code data
  Except.ok (result.take 32, result.drop 32)

/-- The per-segment loop body of `parse_slip10_path`: skip empty segments,
strip all trailing `'`, then all trailing `h`, then all trailing `H`
(Rust `trim_end_matches` removes every trailing match), parse the
remainder as `u32`, and report a failing segment in the error message. -/
def parseSegments : List (List Char) → Except String (List Nat)
  | [] => Except.ok []
  | part :: rest =>
    if part.isEmpty then parseSegments rest
    else
      let num_str := dropEndMatches 'H' (dropEndMatches 'h' (dropEndMatches '\'' part))
      match parseU32 num_str with
      | none => Except.error ("유효하지 않은 인덱스: " ++ String.mk part)
      | some num =>
        match parseSegments rest with
        | Except.error e => Except.error e
        | Except.ok indices => Except.ok (num :: indices)

/-- `parse_slip10_path`: trim the string, require a leading `m`/`M`, split
on `/`, drop the first part, and parse the remaining segments. -/
def parse_slip10_path (path : List Char) : Except String (List Nat) :=
  let path := rustTrim path
  if !(startsWithChar path 'm' || startsWithChar path 'M') then
    Except.error "경로는 \x27m\x27으로 시작해야 합니다"
  else
    parseSegments ((splitOnChar '/' path).drop 1)

/-- `derive_ed25519_private_key`: parse the path, take the master pair,
fold the child step over the indices, return the final key. -/
def derive_ed25519_private_key (seed : List Nat) (path : List Char) :
    Except String (List Nat) := do
  let indices ← parse_slip10_path path
  let start ← slip10_master_key seed
  let final ← indices.foldlM
    (fun (kc : List Nat × List Nat) index => slip10_derive_child kc.1 kc.2 index) start
  Except.ok final.1

end Solana

/-! ## `src/crypto-lib/src/sui/mod.rs` (SLIP-10 part, duplicated verbatim
from the solana module) -/

namespace Sui

/-- Sui default derivation path (`SUI_PATH`). -/
def SUI_PATH : List Char := "m/44\x27/784\x27/0\x27/0\x27/0\x27".toList

/-- The HMAC key of the SLIP-10 master step: the Rust byte literal
`b"ed25519 seed"`. -/
def ed25519_seed_key : List Nat := "ed25519 seed".toList.map Char.toNat

/-- `slip10_master_key` in the sui module (same body as the solana copy). -/
def slip10_master_key (seed : List Nat) : Except String (List Nat × List Nat) :=
  let result := hmacSha512 ed25519_seed_key seed
  Except.ok (result.take 32, result.drop 32)

/-- `slip10_derive_child` in the sui module (same body as the solana copy). -/
def slip10_derive_child (parent_key parent_chain_code : List Nat)
    (index : Nat) : Except String (List Nat × List Nat) :=
  let hardened_index := index ||| 0x80000000
  let data := [0x00] ++ parent_key ++ beBytes 4 hardened_index
  let result := hmacSha512 parent_chain_code data
  Except.ok (result.take 32, result.drop 32)

/-- Per-segment loop of `parse_slip10_path` in the sui module (same body as
the solana copy). -/
def parseSegments : List (List Char) → Except String (List Nat)
  | [] => Except.ok []
  | part :: rest =>
    if part.isEmpty then parseSegments rest
    else
      let num_str := dropEndMatches 'H' (dropEndMatches 'h' (dropEndMatches '\'' part))
      match parseU32 num_str with
      | none => Except.error ("유효하지 않은 인덱스: " ++ String.mk part)
      | some num =>
        match parseSegments rest with
        | Except.error e => Except.error e
        | Except.ok indices => Except.ok (num :: indices)

/-- `parse_slip10_path` in the sui module (same body as the solana copy). -/
def parse_slip10_path (path : List Char) : Except String (List Nat) :=
  let path := rustTrim path
  if !(startsWithChar path 'm' || startsWithChar path 'M') then
    Except.error "경로는 \x27m\x27으로 시작해야 합니다"
  else
    parseSegments ((splitOnChar '/' path).drop 1)

/-- `derive_ed25519_private_key` in the sui module (same body as the solana
copy). -/
def derive_ed25519_private_key (seed : List Nat) (path : List Char) :
    Except String (List Nat) := do
  let indices ← parse_slip10_path path
  let start ← slip10_master_key seed
  let final ← indices.foldlM
    (fun (kc : List Nat × List Nat) index => slip10_derive_child kc.1 kc.2 index) start
  Except.ok final.1

end Sui

/-! ## `src/crypto-lib/src/cosmos/mod.rs` (Bech32 codec) -/

namespace Cosmos

/-- The inner `while bits >= to_bits` loop of `convert_bits`: repeatedly
take `to_bits` off the bit counter and emit `(acc >> bits) & max_v`,
written with an explicit iteration budget so that it is structurally
recursive.  Each pass of the loop removes `to_bits ≥ 1` from the counter,
so a budget equal to the starting counter is never exhausted.  (The Rust
loop diverges when `to_bits = 0`; every call in the source uses
`to_bits = 5`.) -/
def emitLoopF (acc max_v to_bits : Nat) :
    Nat → Nat → List Nat → List Nat × Nat
  | 0, bits, result => (result, bits)
  | fuel + 1, bits, result =>
    if 0 < to_bits ∧ to_bits ≤ bits then
      emitLoopF acc max_v to_bits fuel (bits - to_bits)
        (result ++ [(acc >>> (bits - to_bits)) &&& max_v])
    else (result, bits)

/-- The emit loop at its natural budget. -/
def emitLoop (acc max_v to_bits bits : Nat) (result : List Nat) :
    List Nat × Nat :=
  emitLoopF acc max_v to_bits bits bits result

/-- The body of the `for` loop of `convert_bits`: shift the next symbol
into the `u32` accumulator (`% 2^32`: the Rust `u32` shift discards high
bits), add `from_bits` to the bit counter, and run the emit loop. -/
def convertStep (from_bits to_bits max_v : Nat)
    (st : Nat × Nat × List Nat) (value : Nat) : Nat × Nat × List Nat :=
  let acc := ((st.1 <<< (from_bits % 32)) % 2 ^ 32) ||| value
  let bits := st.2.1 + from_bits
  let er := emitLoop acc max_v to_bits bits st.2.2
  (acc, er.2, er.1)

/-- `convert_bits`: repack `from_bits`-bit symbols into `to_bits`-bit
symbols through a big-endian `u32` accumulator (shift amounts are masked
`% 32` as Rust release builds do).  If `pad` is set and bits remain, they
are left-shifted into one final symbol; otherwise leftover bits are
dropped. -/
def convert_bits (data : List Nat) (from_bits to_bits : Nat) (pad : Bool) :
    List Nat :=
  let max_v := ((1 <<< (to_bits % 32)) - 1) % 2 ^ 32
  let fin := data.foldl (convertStep from_bits to_bits max_v) (0, 0, [])
  if pad ∧ fin.2.1 > 0 then
    fin.2.2 ++ [((fin.1 <<< ((to_bits - fin.2.1) % 32)) % 2 ^ 32) &&& max_v]
  else fin.2.2

/-- The five Bech32 generator constants. -/
def GENERATOR : List Nat :=
  [0x3b6a57b2, 0x26508e6d, 0x1ea119fa, 0x3d4233dd, 0x2a1462b3]

/-- One iteration of `bech32_polymod`: fold one input symbol into the
checksum accumulator `chk`. -/
def polymodStep (chk value : Nat) : Nat :=
  let top := chk >>> 25
  let chk1 := ((chk &&& 0x1ffffff) <<< 5) ^^^ value
  GENERATOR.enum.foldl
    (fun c ig => if (top >>> ig.1) &&& 1 = 1 then c ^^^ ig.2 else c) chk1

/-- `bech32_polymod`: the BCH checksum accumulator over a symbol list,
seeded with 1. -/
def bech32_polymod (values : List Nat) : Nat :=
  values.foldl polymodStep 1

/-- `bech32_hrp_expand`: high 3 bits of each HRP character, a 0 separator,
then the low 5 bits of each character (`c as u8` truncates `% 256`). -/
def bech32_hrp_expand (hrp : List Char) : List Nat :=
  hrp.map (fun c => (c.toNat % 256) >>> 5) ++ [0]
    ++ hrp.map (fun c => (c.toNat % 256) &&& 31)

/-- `bech32_checksum`: polymod over expanded HRP, data, and six zero
symbols, XORed with 1, then split into six 5-bit symbols, most significant
first. -/
def bech32_checksum (hrp : List Char) (data : List Nat) : List Nat :=
  let values := bech32_hrp_expand hrp ++ data ++ List.replicate 6 0
  let polymod := bech32_polymod values ^^^ 1
  (List.range 6).map (fun i => (polymod >>> (5 * (5 - i))) &&& 31)

/-- The 32-character Bech32 alphabet. -/
def CHARSET : List Char := "qpzry9x8gf2tvdw0s3jn54khce6mua7l".toList

/-- `encode_bech32`: 5-bit symbols (padding on), checksum, then map every
symbol through the alphabet and render `hrp ‖ "1" ‖ symbols`.  The Rust
per-symbol `charset.chars().nth(..).unwrap()` is modelled as an `Option`
lookup, so an out-of-alphabet symbol value would surface as `none`. -/
def encode_bech32 (hrp : List Char) (data : List Nat) : Option (List Char) :=
  let bits := convert_bits data 8 5 true
  let checksum := bech32_checksum hrp bits
  let all_bits := bits ++ checksum
  (all_bits.mapM (fun b => CHARSET.get? b)).map
    (fun encoded => hrp ++ ['1'] ++ encoded)

/-- The verification value of the codec's own checksum round-trip described
by the spec: the polymod computed over expanded HRP, the 5-bit payload
symbols, and the six checksum symbols of an encoded string. -/
def bech32_check_value (hrp : List Char) (payload : List Nat) : Nat :=
  let bits := convert_bits payload 8 5 true
  bech32_polymod (bech32_hrp_expand hrp ++ bits ++ bech32_checksum hrp bits)

end Cosmos

/-- The marker-stripping chain applied by the path parsers to a segment:
all trailing `'`, then all trailing `h`, then all trailing `H`. -/
def stripHardeningMarkers (seg : List Char) : List Char :=
  dropEndMatches 'H' (dropEndMatches 'h' (dropEndMatches '\x27' seg))

/-- The 30-bit value packed from six 5-bit symbols, most significant
first (the reading of the checksum symbol list as one integer). -/
def encodeSyms : List Nat → Nat
  | [] => 0
  | c :: cs => (c <<< (5 * cs.length)) ^^^ encodeSyms cs

/-! ## Helper lemmas: characters, trimming, splitting, segment parsing -/

theorem isAsciiDigit_bounds {c : Char} (h : isAsciiDigit c = true) :
    48 ≤ c.toNat ∧ c.toNat ≤ 57 := by
  simpa [isAsciiDigit] using h

theorem digit_ne {c d : Char} (h : isAsciiDigit c = true)
    (hd : d.toNat < 48 ∨ 57 < d.toNat) : c ≠ d := by
  intro he
  subst he
  have := isAsciiDigit_bounds h
  omega

theorem digit_not_ws {c : Char} (h : isAsciiDigit c = true) :
    rustIsWhitespace c = false := by
  have hb := isAsciiDigit_bounds h
  simp only [rustIsWhitespace, rustWhitespaceCodes, List.contains, List.elem_eq_mem,
    decide_eq_false_iff_not, List.mem_cons, List.not_mem_nil, or_false]
  omega

theorem slash_not_ws : rustIsWhitespace '/' = false := by decide

/-- A nonempty `dropWhile` result keeps the last element of the list. -/
theorem dropWhile_getLast? {p : Char → Bool} :
    ∀ s : List Char, s.dropWhile p = [] ∨ (s.dropWhile p).getLast? = s.getLast?
  | [] => Or.inl rfl
  | c :: cs => by
    rw [List.dropWhile_cons]
    by_cases hc : p c = true
    · rw [if_pos hc]
      rcases hd : List.dropWhile p cs with _ | ⟨x, xs⟩
      · exact Or.inl rfl
      · right
        have h := (dropWhile_getLast? cs).resolve_left (by rw [hd]; simp)
        rw [hd] at h
        rw [h]
        rcases cs with _ | ⟨y, ys⟩
        · simp [List.dropWhile] at hd
        · rw [List.getLast?_cons_cons]
    · rw [if_neg hc]
      exact Or.inr rfl

theorem trimEnd_eq_self {s : List Char}
    (h : ∀ c, s.getLast? = some c → rustIsWhitespace c = false) :
    trimEnd s = s := by
  unfold trimEnd
  rcases hs : s.reverse with _ | ⟨c, t⟩
  · simpa using congrArg List.reverse hs
  · have hc : rustIsWhitespace c = false := by
      apply h
      rw [← List.head?_reverse, hs]
      rfl
    rw [List.dropWhile_cons, hc]
    simp [← hs]

theorem trimEnd_concat_not_ws {s : List Char} {c : Char}
    (hc : rustIsWhitespace c = false) : trimEnd (s ++ [c]) = s ++ [c] :=
  trimEnd_eq_self (fun d hd => by
    rw [List.getLast?_concat] at hd
    injection hd with h
    rw [← h]
    exact hc)

theorem trimStart_cons_not_ws {s : List Char} {c : Char}
    (hc : rustIsWhitespace c = false) : trimStart (c :: s) = c :: s := by
  simp [trimStart, List.dropWhile_cons, hc]

/-- `dropEndMatches` is the identity when the last character differs. -/
theorem dropEndMatches_eq_self {m : Char} {s : List Char}
    (h : ∀ c, s.getLast? = some c → c ≠ m) : dropEndMatches m s = s := by
  unfold dropEndMatches
  rcases hs : s.reverse with _ | ⟨c, t⟩
  · simpa using congrArg List.reverse hs
  · have hc : c ≠ m := by
      apply h
      rw [← List.head?_reverse, hs]
      rfl
    rw [List.dropWhile_cons]
    simp [hc, ← hs]

theorem dropEndMatches_concat_same (m : Char) (s : List Char) :
    dropEndMatches m (s ++ [m]) = dropEndMatches m s := by
  unfold dropEndMatches
  rw [List.reverse_append]
  simp [List.dropWhile_cons]

theorem splitOnChar_cons (sep c : Char) (cs : List Char) :
    splitOnChar sep (c :: cs) =
      if c = sep then [] :: splitOnChar sep cs
      else
        match splitOnChar sep cs with
        | [] => [[c]]
        | r :: rs => (c :: r) :: rs := rfl

/-- The split of a string never produces an empty list of parts. -/
theorem splitOnChar_ne_nil (sep : Char) : ∀ s, splitOnChar sep s ≠ []
  | [] => by simp [splitOnChar]
  | c :: cs => by
    rw [splitOnChar_cons]
    by_cases hc : c = sep
    · simp [hc]
    · rw [if_neg hc]
      rcases h : splitOnChar sep cs with _ | ⟨r, rs⟩
      · simp
      · simp

/-- Splitting a separator-free string yields that single part. -/
theorem splitOnChar_no_sep {sep : Char} :
    ∀ {s : List Char}, (∀ c ∈ s, c ≠ sep) → splitOnChar sep s = [s]
  | [], _ => rfl
  | c :: cs, h => by
    rw [splitOnChar_cons]
    have hc : ¬(c = sep) := h c (List.mem_cons_self c cs)
    rw [if_neg hc, splitOnChar_no_sep (fun d hd => h d (List.mem_cons_of_mem c hd))]

/-- Appending a final separator appends one empty part. -/
theorem splitOnChar_concat_sep (sep : Char) :
    ∀ s, splitOnChar sep (s ++ [sep]) = splitOnChar sep s ++ [[]]
  | [] => by simp [splitOnChar]
  | c :: cs => by
    rw [List.cons_append, splitOnChar_cons, splitOnChar_cons,
      splitOnChar_concat_sep sep cs]
    by_cases hc : c = sep
    · rw [if_pos hc, if_pos hc]
      rfl
    · rw [if_neg hc, if_neg hc]
      rcases h : splitOnChar sep cs with _ | ⟨r, rs⟩
      · exact absurd h (splitOnChar_ne_nil sep cs)
      · simp

/-- A prepended separator-free part splits off whole. -/
theorem splitOnChar_append_sep {sep : Char} :
    ∀ {a : List Char} (b : List Char), (∀ c ∈ a, c ≠ sep) →
      splitOnChar sep (a ++ sep :: b) = a :: splitOnChar sep b
  | [], b, _ => by
    rw [List.nil_append, splitOnChar_cons, if_pos rfl]
  | c :: cs, b, h => by
    rw [List.cons_append, splitOnChar_cons]
    have hc : ¬(c = sep) := h c (List.mem_cons_self c cs)
    rw [if_neg hc,
      splitOnChar_append_sep b (fun d hd => h d (List.mem_cons_of_mem c hd))]

theorem parseU32_all_digits {s : List Char} (hne : s ≠ [])
    (hd : ∀ c ∈ s, isAsciiDigit c = true) (hv : digitsVal s < 2 ^ 32) :
    parseU32 s = some (digitsVal s) := by
  have hplus : s.head? ≠ some '+' := by
    rcases s with _ | ⟨c, cs⟩
    · simp at hne
    · simp only [List.head?_cons, ne_eq, Option.some.injEq]
      exact digit_ne (hd c (List.mem_cons_self c cs)) (by left; decide)
  unfold parseU32
  rw [if_neg hplus]
  rw [if_neg (by simpa [List.isEmpty_iff] using hne),
    if_pos (List.all_eq_true.mpr hd), if_pos hv]

theorem dropWhile_head_not {p : Char → Bool} :
    ∀ {s : List Char} {c : Char} {t : List Char},
      s.dropWhile p = c :: t → p c = false
  | [], c, t, h => by simp [List.dropWhile] at h
  | d :: ds, c, t, h => by
    rw [List.dropWhile_cons] at h
    by_cases hd : p d = true
    · rw [if_pos hd] at h
      exact dropWhile_head_not h
    · rw [if_neg hd] at h
      injection h with h1 _
      rw [← h1]
      exact Bool.eq_false_iff.mpr hd

theorem trimEnd_cons_head {c : Char} (hc : rustIsWhitespace c = false)
    (l : List Char) : ∃ t, trimEnd (c :: l) = c :: t := by
  unfold trimEnd
  rw [List.reverse_cons, List.dropWhile_append]
  by_cases he : (List.dropWhile rustIsWhitespace l.reverse).isEmpty = true
  · rw [if_pos he]
    exact ⟨[], by simp [List.dropWhile_cons, hc]⟩
  · rw [if_neg he]
    exact ⟨(List.dropWhile rustIsWhitespace l.reverse).reverse, by
      simp [List.dropWhile_cons, hc]⟩

theorem parseU32_lt {s : List Char} {v : Nat} (h : parseU32 s = some v) :
    v < 2 ^ 32 := by
  unfold parseU32 at h
  dsimp only at h
  split at h
  all_goals
    split at h
    · exact absurd h (by simp)
    · split at h
      · split at h
        · injection h with h2
          omega
        · exact absurd h (by simp)
      · exact absurd h (by simp)

theorem getLast_digit {ds : List Char} (hne : ds ≠ [])
    (hd : ∀ c ∈ ds, isAsciiDigit c = true) :
    ∀ c, ds.getLast? = some c → isAsciiDigit c = true := by
  intro c hc
  rw [List.getLast?_eq_getLast ds hne] at hc
  injection hc with h
  rw [← h]
  exact hd _ (List.getLast_mem hne)

theorem strip_digits_quote {ds : List Char} (hne : ds ≠ [])
    (hd : ∀ c ∈ ds, isAsciiDigit c = true) :
    dropEndMatches '\x27' ds = ds :=
  dropEndMatches_eq_self
    (fun c hc => digit_ne (getLast_digit hne hd c hc) (by left; decide))

theorem strip_digits_h {ds : List Char} (hne : ds ≠ [])
    (hd : ∀ c ∈ ds, isAsciiDigit c = true) :
    dropEndMatches 'h' ds = ds :=
  dropEndMatches_eq_self
    (fun c hc => digit_ne (getLast_digit hne hd c hc) (by right; decide))

theorem strip_digits_H {ds : List Char} (hne : ds ≠ [])
    (hd : ∀ c ∈ ds, isAsciiDigit c = true) :
    dropEndMatches 'H' ds = ds :=
  dropEndMatches_eq_self
    (fun c hc => digit_ne (getLast_digit hne hd c hc) (by right; decide))

theorem stripHardeningMarkers_digits {ds : List Char} (hne : ds ≠ [])
    (hd : ∀ c ∈ ds, isAsciiDigit c = true) :
    stripHardeningMarkers ds = ds := by
  unfold stripHardeningMarkers
  rw [strip_digits_quote hne hd, strip_digits_h hne hd, strip_digits_H hne hd]

theorem parseSegments_cons (part : List Char) (rest : List (List Char)) :
    Solana.parseSegments (part :: rest) =
      if part.isEmpty then Solana.parseSegments rest
      else
        match parseU32 (stripHardeningMarkers part) with
        | none => Except.error ("유효하지 않은 인덱스: " ++ String.mk part)
        | some num =>
          match Solana.parseSegments rest with
          | Except.error e => Except.error e
          | Except.ok indices => Except.ok (num :: indices) := rfl

theorem parseSegments_append_empty :
    ∀ l, Solana.parseSegments (l ++ [[]]) = Solana.parseSegments l
  | [] => rfl
  | part :: rest => by
    rw [List.cons_append, parseSegments_cons, parseSegments_cons,
      parseSegments_append_empty rest]

theorem parseSegments_ok_lt :
    ∀ {l : List (List Char)} {indices : List Nat},
      Solana.parseSegments l = Except.ok indices →
      ∀ v ∈ indices, v < 2 ^ 32
  | [], indices, h => by
    injection h with h
    rw [← h]
    intro v hv
    simp at hv
  | part :: rest, indices, h => by
    rw [parseSegments_cons] at h
    by_cases he : part.isEmpty
    · rw [if_pos he] at h
      exact parseSegments_ok_lt h
    · rw [if_neg he] at h
      rcases hp : parseU32 (stripHardeningMarkers part) with _ | ⟨num⟩
      · rw [hp] at h
        exact absurd h (by simp)
      · rw [hp] at h
        rcases hr : Solana.parseSegments rest with e | tailIndices
        · rw [hr] at h
          exact absurd h (by simp)
        · rw [hr] at h
          injection h with h
          rw [← h]
          intro v hv
          rcases List.mem_cons.mp hv with rfl | hv2
          · exact parseU32_lt hp
          · exact parseSegments_ok_lt hr v hv2

theorem parseSegments_error :
    ∀ {l : List (List Char)} {e : String},
      Solana.parseSegments l = Except.error e →
      ∃ seg, seg ∈ l ∧ seg ≠ [] ∧ parseU32 (stripHardeningMarkers seg) = none ∧
        e = "유효하지 않은 인덱스: " ++ String.mk seg
  | [], e, h => by exact absurd h (by simp [Solana.parseSegments])
  | part :: rest, e, h => by
    rw [parseSegments_cons] at h
    by_cases he : part.isEmpty
    · rw [if_pos he] at h
      obtain ⟨seg, hmem, hrest⟩ := parseSegments_error h
      exact ⟨seg, List.mem_cons_of_mem part hmem, hrest⟩
    · rw [if_neg he] at h
      rcases hp : parseU32 (stripHardeningMarkers part) with _ | ⟨num⟩
      · rw [hp] at h
        injection h with h
        exact ⟨part, List.mem_cons_self part rest,
          by simpa [List.isEmpty_iff] using he, hp, h.symm⟩
      · rw [hp] at h
        rcases hr : Solana.parseSegments rest with e2 | tailIndices
        · rw [hr] at h
          injection h with h
          obtain ⟨seg, hmem, hrest⟩ := parseSegments_error hr
          rw [h] at hrest
          exact ⟨seg, List.mem_cons_of_mem part hmem, hrest⟩
        · rw [hr] at h
          exact absurd h (by simp)

theorem parse_head_mM {path : List Char} {c : Char} (hh : path.head? = some c)
    (hm : c = 'm' ∨ c = 'M') :
    Solana.parse_slip10_path path =
      Solana.parseSegments ((splitOnChar '/' (rustTrim path)).drop 1) := by
  rcases path with _ | ⟨d, rest⟩
  · simp at hh
  · injection hh with hh
    rw [← hh] at hm
    have hws : rustIsWhitespace d = false := by
      rcases hm with rfl | rfl <;> decide
    have h1 : trimStart (d :: rest) = d :: rest := trimStart_cons_not_ws hws
    obtain ⟨t, ht⟩ := trimEnd_cons_head hws rest
    have htrim : rustTrim (d :: rest) = d :: t := by
      unfold rustTrim
      rw [h1, ht]
    unfold Solana.parse_slip10_path
    rw [htrim]
    rw [if_neg (by rcases hm with rfl | rfl <;> simp [startsWithChar])]

theorem parse_single_segment {seg : List Char} (hne : seg ≠ [])
    (hnos : ∀ c ∈ seg, c ≠ '/')
    (hlast : ∀ c, seg.getLast? = some c → rustIsWhitespace c = false) :
    Solana.parse_slip10_path ('m' :: '/' :: seg) = Solana.parseSegments [seg] := by
  have hgl : ('m' :: '/' :: seg).getLast? = seg.getLast? := by
    rcases seg with _ | ⟨x, xs⟩
    · exact absurd rfl hne
    · rw [List.getLast?_cons_cons, List.getLast?_cons_cons]
  have h1 : trimStart ('m' :: '/' :: seg) = 'm' :: '/' :: seg :=
    trimStart_cons_not_ws (by decide)
  have h2 : trimEnd ('m' :: '/' :: seg) = 'm' :: '/' :: seg :=
    trimEnd_eq_self (fun c hc => hlast c (hgl ▸ hc))
  have htrim : rustTrim ('m' :: '/' :: seg) = 'm' :: '/' :: seg := by
    unfold rustTrim
    rw [h1, h2]
  unfold Solana.parse_slip10_path
  rw [htrim]
  rw [if_neg (by simp [startsWithChar])]
  have hsplit : splitOnChar '/' ('m' :: '/' :: seg) = ['m'] :: [seg] := by
    have : ('m' :: '/' :: seg) = ['m'] ++ '/' :: seg := rfl
    rw [this, splitOnChar_append_sep seg (by intro c hc; simp at hc; rw [hc]; decide),
      splitOnChar_no_sep hnos]
  rw [hsplit]
  rfl

/-- The trailing-slash lemma: appending `/` to a path that does not end in
whitespace does not change the parse result (the extra empty segment is
skipped). -/
theorem parse_append_slash (s : List Char)
    (hlast : ∀ c, s.getLast? = some c → rustIsWhitespace c = false) :
    Solana.parse_slip10_path (s ++ ['/']) = Solana.parse_slip10_path s := by
  rcases hts : trimStart s with _ | ⟨c, t⟩
  · have h1 : trimStart (s ++ ['/']) = ['/'] := by
      unfold trimStart at hts ⊢
      rw [List.dropWhile_append, hts]
      simp [List.dropWhile_cons, slash_not_ws]
    have htrim1 : rustTrim (s ++ ['/']) = ['/'] := by
      unfold rustTrim
      rw [h1]
      exact trimEnd_eq_self (fun c hc => by
        injection hc with h
        rw [← h]
        exact slash_not_ws)
    have htrim2 : rustTrim s = [] := by
      unfold rustTrim
      rw [hts]
      rfl
    unfold Solana.parse_slip10_path
    rw [htrim1, htrim2]
    rfl
  · have hgl : (c :: t).getLast? = s.getLast? := by
      have h0 := (dropWhile_getLast? (p := rustIsWhitespace) s).resolve_left
        (by unfold trimStart at hts; rw [hts]; simp)
      unfold trimStart at hts
      rw [hts] at h0
      exact h0
    have hlast2 : ∀ d, (c :: t).getLast? = some d → rustIsWhitespace d = false := by
      intro d hd
      apply hlast
      rw [← hgl]
      exact hd
    have htrimS : rustTrim s = c :: t := by
      unfold rustTrim
      rw [hts]
      exact trimEnd_eq_self hlast2
    have h1 : trimStart (s ++ ['/']) = (c :: t) ++ ['/'] := by
      unfold trimStart at hts ⊢
      rw [List.dropWhile_append, hts, if_neg (by simp)]
    have htrimA : rustTrim (s ++ ['/']) = c :: (t ++ ['/']) := by
      unfold rustTrim
      rw [h1, trimEnd_concat_not_ws slash_not_ws]
      rfl
    unfold Solana.parse_slip10_path
    rw [htrimA, htrimS]
    simp only [startsWithChar]
    by_cases hb : (!(decide (c = 'm') || decide (c = 'M'))) = true
    · rw [if_pos hb, if_pos hb]
    · rw [if_neg hb, if_neg hb]
      have hccat : (c :: (t ++ ['/'])) = (c :: t) ++ ['/'] := rfl
      rw [hccat, splitOnChar_concat_sep]
      rcases hsp : splitOnChar '/' (c :: t) with _ | ⟨r, rs⟩
      · exact absurd hsp (splitOnChar_ne_nil _ _)
      · show Solana.parseSegments (rs ++ [[]]) = Solana.parseSegments rs
        exact parseSegments_append_empty rs

/-! ## Claim theorems -/

/-- C10: for every path string whose first character is `m` or `M`, the
parser discards the entire first `/`-separated segment without validating
it; `"mfoo/1"` parses to `[1]` and `"m42"` (no slash) parses to the empty
sequence. -/
theorem parse_discards_first_segment :
    (∀ (path : List Char) (c : Char), path.head? = some c →
      (c = 'm' ∨ c = 'M') →
      Solana.parse_slip10_path path =
        Solana.parseSegments ((splitOnChar '/' (rustTrim path)).drop 1))
    ∧ Solana.parse_slip10_path "mfoo/1".toList = Except.ok [1]
    ∧ Solana.parse_slip10_path "m42".toList = Except.ok [] :=
  ⟨fun _ _ hh hm => parse_head_mM hh hm, rfl, rfl⟩

/-- Witness for C10 at the concrete path `"mA/7"`. -/
theorem parse_discards_first_segment_instance :
    Solana.parse_slip10_path "mA/7".toList =
      Solana.parseSegments ((splitOnChar '/' (rustTrim "mA/7".toList)).drop 1) :=
  parse_discards_first_segment.1 "mA/7".toList 'm' rfl (Or.inl rfl)

/-- C5 counterexample: the segment value `2147483648 = 2^31` is accepted by
the parser (the code parses any `u32`, so indices up to `2^32 - 1` pass),
contradicting the claim that every parsed index is `< 2^31`. -/
theorem index_above_2pow31_accepted :
    Solana.parse_slip10_path "m/2147483648".toList = Except.ok [2147483648]
    ∧ ¬(2147483648 < 2 ^ 31) :=
  ⟨rfl, by norm_num⟩

/-- C5 amended: every index in a successfully parsed derivation path is an
unsigned 32-bit value, i.e. strictly less than `2^32` (a segment whose
numeric value is `2^32` or larger is rejected as overflow). -/
theorem parsed_indices_lt_2pow32 :
    ∀ (path : List Char) (indices : List Nat) (v : Nat),
      Solana.parse_slip10_path path = Except.ok indices → v ∈ indices →
      v < 2 ^ 32 := by
  intro path indices v h hv
  unfold Solana.parse_slip10_path at h
  dsimp only at h
  split at h
  · exact absurd h (by simp)
  · exact parseSegments_ok_lt h v hv

/-- Witness for C5's amended theorem at the concrete path `"m/1"`. -/
theorem parsed_indices_lt_2pow32_instance :
    Solana.parse_slip10_path "m/1".toList = Except.ok [1] ∧ (1 : Nat) < 2 ^ 32 :=
  ⟨rfl, parsed_indices_lt_2pow32 "m/1".toList [1] 1 rfl (by simp)⟩

/-- C7 counterexample: the string `" m"` does not begin with the character
`m` or `M` (it begins with a space), yet the parser accepts it, because the
leading-marker check runs on the trimmed string. -/
theorem leading_whitespace_path_accepted :
    Solana.parse_slip10_path [' ', 'm'] = Except.ok []
    ∧ ' ' ≠ 'm' ∧ ' ' ≠ 'M' :=
  ⟨rfl, by decide, by decide⟩

/-- An invalid-index error message never coincides with the
invalid-format error message (they differ in their first character). -/
theorem idx_error_ne_fmt (seg : List Char) :
    ("유효하지 않은 인덱스: " ++ String.mk seg)
      ≠ "경로는 \x27m\x27으로 시작해야 합니다" := by
  intro h
  have hd := congrArg String.data h
  rw [String.data_append] at hd
  have h2 := congrArg (fun l => l.head?) hd
  simp at h2

/-- A non-empty segment whose marker-stripped remainder is non-numeric
forces `parseSegments` into an error, and the error names such an
offending segment verbatim. -/
theorem parseSegments_bad_errors :
    ∀ (l : List (List Char)) (seg : List Char), seg ∈ l → seg ≠ [] →
      parseU32 (stripHardeningMarkers seg) = none →
      ∃ bad, bad ∈ l ∧ bad ≠ [] ∧
        parseU32 (stripHardeningMarkers bad) = none ∧
        Solana.parseSegments l =
          Except.error ("유효하지 않은 인덱스: " ++ String.mk bad)
  | [], seg, hmem, _, _ => absurd hmem (List.not_mem_nil seg)
  | part :: rest, seg, hmem, hne, hnone => by
    rw [parseSegments_cons]
    by_cases hemp : part.isEmpty
    · rw [if_pos hemp]
      rcases List.mem_cons.mp hmem with rfl | hmem2
      · exact absurd (List.isEmpty_iff.mp hemp) hne
      · obtain ⟨bad, h1, h2, h3, h4⟩ :=
          parseSegments_bad_errors rest seg hmem2 hne hnone
        exact ⟨bad, List.mem_cons_of_mem _ h1, h2, h3, h4⟩
    · rw [if_neg hemp]
      rcases hp : parseU32 (stripHardeningMarkers part) with _ | num
      · exact ⟨part, List.mem_cons_self _ _,
          fun he => hemp (by rw [he]; rfl), hp, rfl⟩
      · rcases List.mem_cons.mp hmem with rfl | hmem2
        · rw [hp] at hnone
          exact absurd hnone (by simp)
        · obtain ⟨bad, h1, h2, h3, h4⟩ :=
            parseSegments_bad_errors rest seg hmem2 hne hnone
          rw [h4]
          exact ⟨bad, List.mem_cons_of_mem _ h1, h2, h3, rfl⟩

/-- C7 amended: the parser rejects exactly the invalid inputs, on the
whitespace-trimmed string.  (1) The invalid-format error is returned if
and ONLY if the trimmed string does not begin with `m` or `M`; (2) when
the marker check passes, a non-empty segment whose marker-stripped
remainder is non-numeric CAUSES an error whose message names such an
offending segment verbatim; (3) a path containing such a segment is never
silently accepted; (4) conversely, every parse error is the format error
or an invalid-index error naming an offending segment. -/
theorem path_errors_amended :
    ∀ path : List Char,
      (Solana.parse_slip10_path path =
          Except.error "경로는 \x27m\x27으로 시작해야 합니다"
        ↔ (startsWithChar (rustTrim path) 'm'
            || startsWithChar (rustTrim path) 'M') = false)
      ∧ ((startsWithChar (rustTrim path) 'm'
            || startsWithChar (rustTrim path) 'M') = true →
          ∀ seg, seg ∈ (splitOnChar '/' (rustTrim path)).drop 1 → seg ≠ [] →
            parseU32 (stripHardeningMarkers seg) = none →
            ∃ bad, bad ∈ (splitOnChar '/' (rustTrim path)).drop 1 ∧ bad ≠ [] ∧
              parseU32 (stripHardeningMarkers bad) = none ∧
              Solana.parse_slip10_path path =
                Except.error ("유효하지 않은 인덱스: " ++ String.mk bad))
      ∧ (∀ seg, seg ∈ (splitOnChar '/' (rustTrim path)).drop 1 → seg ≠ [] →
          parseU32 (stripHardeningMarkers seg) = none →
          ∀ indices, Solana.parse_slip10_path path ≠ Except.ok indices)
      ∧ (∀ e, Solana.parse_slip10_path path = Except.error e →
          e = "경로는 \x27m\x27으로 시작해야 합니다" ∨
          ∃ seg, seg ∈ (splitOnChar '/' (rustTrim path)).drop 1 ∧ seg ≠ [] ∧
            parseU32 (stripHardeningMarkers seg) = none ∧
            e = "유효하지 않은 인덱스: " ++ String.mk seg) := by
  intro path
  refine ⟨⟨?_, ?_⟩, ?_, ?_, ?_⟩
  · intro h
    cases hb : (startsWithChar (rustTrim path) 'm'
        || startsWithChar (rustTrim path) 'M') with
    | false => rfl
    | true =>
      unfold Solana.parse_slip10_path at h
      dsimp only at h
      rw [hb] at h
      simp only [Bool.not_true] at h
      rw [if_neg (by simp)] at h
      obtain ⟨seg, _, _, _, he⟩ := parseSegments_error h
      exact absurd he.symm (idx_error_ne_fmt seg)
  · intro hguard
    unfold Solana.parse_slip10_path
    dsimp only
    rw [hguard]
    rfl
  · intro hg seg hmem hne hnone
    obtain ⟨bad, hb1, hb2, hb3, hb4⟩ :=
      parseSegments_bad_errors _ seg hmem hne hnone
    refine ⟨bad, hb1, hb2, hb3, ?_⟩
    unfold Solana.parse_slip10_path
    dsimp only
    rw [hg]
    simp only [Bool.not_true]
    rw [if_neg (by simp)]
    exact hb4
  · intro seg hmem hne hnone indices hok
    unfold Solana.parse_slip10_path at hok
    dsimp only at hok
    split at hok
    · exact absurd hok (by simp)
    · obtain ⟨bad, _, _, _, hb4⟩ :=
        parseSegments_bad_errors _ seg hmem hne hnone
      rw [hb4] at hok
      exact absurd hok (by simp)
  · intro e h
    unfold Solana.parse_slip10_path at h
    dsimp only at h
    split at h
    · injection h with h
      exact Or.inl h.symm
    · exact Or.inr (parseSegments_error h)

/-- Witness for C7's amended theorem: the non-numeric segment `"zz"` in
`"m/zz"` causes an invalid-index error naming it. -/
theorem path_errors_amended_instance :
    (∃ bad, bad ∈ (splitOnChar '/' (rustTrim "m/zz".toList)).drop 1 ∧
      bad ≠ [] ∧ parseU32 (stripHardeningMarkers bad) = none ∧
      Solana.parse_slip10_path "m/zz".toList =
        Except.error ("유효하지 않은 인덱스: " ++ String.mk bad))
    ∧ Solana.parse_slip10_path ['x'] =
        Except.error "경로는 \x27m\x27으로 시작해야 합니다" :=
  ⟨(path_errors_amended "m/zz".toList).2.1 (by decide) ['z', 'z']
      (by decide) (by decide) (by decide),
   (path_errors_amended ['x']).1.mpr (by decide)⟩

/-- C4 counterexample: the segment `44''` carries two trailing hardening
markers; the claim says only one is removed (so the remainder `44'` would
fail to parse), but the code strips every trailing marker and accepts the
segment as index 44. -/
theorem marker_stripping_counterexample :
    Solana.parse_slip10_path "m/44\x27\x27".toList = Except.ok [44]
    ∧ parseU32 "44\x27".toList = none :=
  ⟨rfl, rfl⟩

/-- C4 amended: the parser strips all trailing `'` characters, then all
trailing `h`, then all trailing `H` (in that order) from a segment; for
every digit string `d` (with value below `2^32`) the segments `d`, `d'`,
`dh`, `dH`, and also `d''` with a repeated marker, all parse to the same
index. -/
theorem marker_stripping_amended :
    ∀ ds : List Char, ds ≠ [] → (∀ c ∈ ds, isAsciiDigit c = true) →
      digitsVal ds < 2 ^ 32 →
      Solana.parse_slip10_path ('m' :: '/' :: ds) = Except.ok [digitsVal ds]
      ∧ Solana.parse_slip10_path ('m' :: '/' :: (ds ++ ['\x27'])) =
          Except.ok [digitsVal ds]
      ∧ Solana.parse_slip10_path ('m' :: '/' :: (ds ++ ['h'])) =
          Except.ok [digitsVal ds]
      ∧ Solana.parse_slip10_path ('m' :: '/' :: (ds ++ ['H'])) =
          Except.ok [digitsVal ds]
      ∧ Solana.parse_slip10_path ('m' :: '/' :: (ds ++ ['\x27', '\x27'])) =
          Except.ok [digitsVal ds] := by
  intro ds hne hd hv
  have hslash : ∀ c ∈ ds, c ≠ '/' :=
    fun c hc => digit_ne (hd c hc) (by left; decide)
  have hlastd : ∀ c, ds.getLast? = some c → rustIsWhitespace c = false :=
    fun c hc => digit_not_ws (getLast_digit hne hd c hc)
  have hsingle : ∀ seg : List Char, seg ≠ [] → (∀ c ∈ seg, c ≠ '/') →
      (∀ c, seg.getLast? = some c → rustIsWhitespace c = false) →
      stripHardeningMarkers seg = ds →
      Solana.parse_slip10_path ('m' :: '/' :: seg) = Except.ok [digitsVal ds] := by
    intro seg h1 h2 h3 h4
    rw [parse_single_segment h1 h2 h3, parseSegments_cons,
      if_neg (by simpa [List.isEmpty_iff] using h1), h4,
      parseU32_all_digits hne hd hv]
    rfl
  have hmark : ∀ m : Char, m ≠ '/' → rustIsWhitespace m = false →
      (∀ c ∈ ds, c ≠ m) →
      ∀ rest : List Char, stripHardeningMarkers (ds ++ rest) = ds →
      True := fun _ _ _ _ _ _ => trivial
  clear hmark
  refine ⟨?_, ?_, ?_, ?_, ?_⟩
  · exact hsingle ds hne hslash hlastd (stripHardeningMarkers_digits hne hd)
  · refine hsingle (ds ++ ['\x27']) (by simp) ?_ ?_ ?_
    · intro c hc
      rcases List.mem_append.mp hc with hc | hc
      · exact hslash c hc
      · simp at hc
        rw [hc]
        decide
    · intro c hc
      rw [List.getLast?_concat] at hc
      injection hc with h
      rw [← h]
      decide
    · unfold stripHardeningMarkers
      rw [dropEndMatches_concat_same, strip_digits_quote hne hd,
        strip_digits_h hne hd, strip_digits_H hne hd]
  · refine hsingle (ds ++ ['h']) (by simp) ?_ ?_ ?_
    · intro c hc
      rcases List.mem_append.mp hc with hc | hc
      · exact hslash c hc
      · simp at hc
        rw [hc]
        decide
    · intro c hc
      rw [List.getLast?_concat] at hc
      injection hc with h
      rw [← h]
      decide
    · have e1 : dropEndMatches '\x27' (ds ++ ['h']) = ds ++ ['h'] :=
        dropEndMatches_eq_self (fun c hc => by
          rw [List.getLast?_concat] at hc
          injection hc with h
          rw [← h]
          decide)
      have e2 : dropEndMatches 'h' (ds ++ ['h']) = ds := by
        rw [dropEndMatches_concat_same, strip_digits_h hne hd]
      unfold stripHardeningMarkers
      rw [e1, e2, strip_digits_H hne hd]
  · refine hsingle (ds ++ ['H']) (by simp) ?_ ?_ ?_
    · intro c hc
      rcases List.mem_append.mp hc with hc | hc
      · exact hslash c hc
      · simp at hc
        rw [hc]
        decide
    · intro c hc
      rw [List.getLast?_concat] at hc
      injection hc with h
      rw [← h]
      decide
    · have e1 : dropEndMatches '\x27' (ds ++ ['H']) = ds ++ ['H'] :=
        dropEndMatches_eq_self (fun c hc => by
          rw [List.getLast?_concat] at hc
          injection hc with h
          rw [← h]
          decide)
      have e2 : dropEndMatches 'h' (ds ++ ['H']) = ds ++ ['H'] :=
        dropEndMatches_eq_self (fun c hc => by
          rw [List.getLast?_concat] at hc
          injection hc with h
          rw [← h]
          decide)
      unfold stripHardeningMarkers
      rw [e1, e2, dropEndMatches_concat_same, strip_digits_H hne hd]
  · refine hsingle (ds ++ ['\x27', '\x27']) (by simp) ?_ ?_ ?_
    · intro c hc
      rcases List.mem_append.mp hc with hc | hc
      · exact hslash c hc
      · simp at hc
        rcases hc with rfl | rfl <;> decide
    · intro c hc
      rw [show ds ++ ['\x27', '\x27'] = (ds ++ ['\x27']) ++ ['\x27'] by
            rw [List.append_assoc]; rfl,
        List.getLast?_concat] at hc
      injection hc with h
      rw [← h]
      decide
    · unfold stripHardeningMarkers
      rw [show ds ++ ['\x27', '\x27'] = (ds ++ ['\x27']) ++ ['\x27'] by
            rw [List.append_assoc]; rfl,
        dropEndMatches_concat_same, dropEndMatches_concat_same,
        strip_digits_quote hne hd, strip_digits_h hne hd, strip_digits_H hne hd]

/-- Witness for C4's amended theorem at the digit string `"44"`. -/
theorem marker_stripping_amended_instance :
    Solana.parse_slip10_path "m/44".toList = Except.ok [44]
    ∧ Solana.parse_slip10_path "m/44\x27\x27".toList = Except.ok [44] :=
  ⟨(marker_stripping_amended ['4', '4'] (by simp) (by decide) (by decide)).1,
   (marker_stripping_amended ['4', '4'] (by simp) (by decide) (by decide)).2.2.2.2⟩

/-- C8 counterexample: appending a trailing slash can change the parse
result.  `"m/5 "` parses to `[5]` (the trailing space is trimmed), but
`"m/5 /"` fails: the space is now inside the segment `"5 "`, which is not
numeric. -/
theorem trailing_slash_changes_result :
    Solana.parse_slip10_path "m/5 ".toList = Except.ok [5]
    ∧ Solana.parse_slip10_path "m/5 /".toList =
        Except.error "유효하지 않은 인덱스: 5 " :=
  ⟨rfl, rfl⟩

/-- C8 amended: `"m"` parses to the empty index sequence,
`"m/44'/501'/0'/0'"` parses to `[44, 501, 0, 0]`, and — for every string
that does not end in a whitespace character — appending a trailing slash
does not change the result (the extra empty segment is skipped). -/
theorem parse_positive_cases_amended :
    Solana.parse_slip10_path "m".toList = Except.ok []
    ∧ Solana.parse_slip10_path "m/44\x27/501\x27/0\x27/0\x27".toList =
        Except.ok [44, 501, 0, 0]
    ∧ (∀ s : List Char, (∀ c, s.getLast? = some c → rustIsWhitespace c = false) →
        Solana.parse_slip10_path (s ++ ['/']) = Solana.parse_slip10_path s) :=
  ⟨rfl, rfl, parse_append_slash⟩

/-- Witness for C8's amended theorem: trailing slash after `"m/1"`. -/
theorem parse_positive_cases_amended_instance :
    Solana.parse_slip10_path ("m/1".toList ++ ['/']) =
      Solana.parse_slip10_path "m/1".toList :=
  parse_positive_cases_amended.2.2 "m/1".toList (fun c hc => by
    injection hc with h
    rw [← h]
    decide)

/-! ## Length lemmas for SHA-512 / HMAC -/

theorem beBytes_length : ∀ n x, (beBytes n x).length = n
  | 0, _ => rfl
  | n + 1, x => by
    rw [beBytes, List.length_append, beBytes_length n (x / 256)]
    rfl

theorem sha512Compress_length {hs : List Nat} (h : hs.length = 8)
    (chunk : List Nat) : (sha512Compress hs chunk).length = 8 := by
  unfold sha512Compress
  rw [List.length_zipWith, h]
  rfl

theorem foldl_compress_length :
    ∀ (cl : List (List Nat)) (hs : List Nat), hs.length = 8 →
      (cl.foldl sha512Compress hs).length = 8
  | [], hs, h => h
  | chunk :: cl, hs, h => by
    rw [List.foldl_cons]
    exact foldl_compress_length cl _ (sha512Compress_length h chunk)

theorem map_beBytes8_sum : ∀ l : List Nat,
    (List.map List.length (l.map (beBytes 8))).sum = 8 * l.length
  | [] => rfl
  | w :: l => by
    rw [List.map_cons, List.map_cons, List.sum_cons, map_beBytes8_sum l,
      beBytes_length, List.length_cons]
    ring

theorem sha512_length (m : List Nat) : (sha512 m).length = 64 := by
  unfold sha512
  rw [List.length_flatten, map_beBytes8_sum,
    foldl_compress_length _ shaH0 rfl]

theorem hmacSha512_length (key msg : List Nat) :
    (hmacSha512 key msg).length = 64 := by
  unfold hmacSha512
  exact sha512_length _

/-- C1: in every SLIP-10 step the HMAC framing is exact.  The master step
keys HMAC-SHA512 with the ASCII literal `"ed25519 seed"` over the seed; the
child step keys HMAC-SHA512 with the parent chain code over the 37-byte
message `0x00 ‖ parent_key(32) ‖ be_u32(index | 0x80000000)`, whose
transmitted index always has bit 31 set; in both steps the first 32 of the
64 output bytes become the key and the last 32 the chain code. -/
theorem slip10_hmac_framing :
    ∀ (seed parent_key parent_chain_code : List Nat) (index : Nat),
      index < 2 ^ 32 → parent_key.length = 32 →
      Solana.slip10_master_key seed =
          Except.ok ((hmacSha512 Solana.ed25519_seed_key seed).take 32,
            (hmacSha512 Solana.ed25519_seed_key seed).drop 32)
      ∧ Solana.ed25519_seed_key =
          [101, 100, 50, 53, 53, 49, 57, 32, 115, 101, 101, 100]
      ∧ (hmacSha512 Solana.ed25519_seed_key seed).length = 64
      ∧ Solana.slip10_derive_child parent_key parent_chain_code index =
          Except.ok
            ((hmacSha512 parent_chain_code
                ([0x00] ++ parent_key ++ beBytes 4 (index ||| 0x80000000))).take 32,
             (hmacSha512 parent_chain_code
                ([0x00] ++ parent_key ++ beBytes 4 (index ||| 0x80000000))).drop 32)
      ∧ ([0x00] ++ parent_key ++ beBytes 4 (index ||| 0x80000000)).length = 37
      ∧ Nat.testBit (index ||| 0x80000000) 31 = true
      ∧ 2 ^ 31 ≤ index ||| 0x80000000
      ∧ index ||| 0x80000000 < 2 ^ 32
      ∧ (hmacSha512 parent_chain_code
          ([0x00] ++ parent_key ++ beBytes 4 (index ||| 0x80000000))).length = 64 := by
  intro seed parent_key parent_chain_code index hi hk
  have htb : Nat.testBit (index ||| 0x80000000) 31 = true := by
    rw [Nat.testBit_or]
    have : Nat.testBit 0x80000000 31 = true := by
      rw [show (0x80000000 : Nat) = 2 ^ 31 by norm_num]
      exact Nat.testBit_two_pow_self
    rw [this, Bool.or_true]
  refine ⟨rfl, rfl, hmacSha512_length _ _, rfl, ?_, htb, ?_, ?_, hmacSha512_length _ _⟩
  · rw [List.length_append, List.length_append, hk, beBytes_length]
    rfl
  · exact Nat.testBit_implies_ge htb
  · exact Nat.or_lt_two_pow hi (by norm_num)

/-- Witness for C1 at seed `[]`, an all-zero 32-byte parent key, empty
chain code, and index 0. -/
theorem slip10_hmac_framing_instance :
    (0 : Nat) < 2 ^ 32 ∧ (List.replicate 32 (0 : Nat)).length = 32
    ∧ Nat.testBit ((0 : Nat) ||| 0x80000000) 31 = true :=
  ⟨by norm_num, by simp,
   (slip10_hmac_framing [] (List.replicate 32 0) [] 0 (by norm_num)
      (by simp)).2.2.2.2.2.1⟩

/-- C3: the SLIP-10 Ed25519 deriver duplicated in the solana and sui
modules is extensionally equal — for every seed and path string both
modules' `derive_ed25519_private_key` return the identical result. -/
theorem slip10_solana_sui_agree :
    ∀ (seed : List Nat) (path : List Char),
      Solana.derive_ed25519_private_key seed path =
        Sui.derive_ed25519_private_key seed path := by
  intro seed path
  have hseg : ∀ l, Solana.parseSegments l = Sui.parseSegments l := by
    intro l
    induction l with
    | nil => rfl
    | cons part rest ih =>
      rw [parseSegments_cons]
      rw [show Sui.parseSegments (part :: rest) =
        if part.isEmpty then Sui.parseSegments rest
        else
          match parseU32 (stripHardeningMarkers part) with
          | none => Except.error ("유효하지 않은 인덱스: " ++ String.mk part)
          | some num =>
            match Sui.parseSegments rest with
            | Except.error e => Except.error e
            | Except.ok indices => Except.ok (num :: indices) from rfl]
      rw [ih]
  have hparse : Solana.parse_slip10_path path = Sui.parse_slip10_path path := by
    unfold Solana.parse_slip10_path Sui.parse_slip10_path
    simp only [hseg]
  unfold Solana.derive_ed25519_private_key Sui.derive_ed25519_private_key
  rw [hparse]
  rfl

/-! ## Bit-packer lemmas -/

theorem emitLoopF_spec (acc mv : Nat) :
    ∀ (fuel bits : Nat) (res : List Nat), bits ≤ fuel →
      (Cosmos.emitLoopF acc mv 5 fuel bits res).2 = bits % 5
      ∧ (Cosmos.emitLoopF acc mv 5 fuel bits res).1.length = res.length + bits / 5
  | 0, bits, res, h => by
    have hb : bits = 0 := by omega
    rw [hb]
    exact ⟨rfl, by simp [Cosmos.emitLoopF]⟩
  | fuel + 1, bits, res, h => by
    rw [Cosmos.emitLoopF]
    by_cases hc : 0 < 5 ∧ 5 ≤ bits
    · rw [if_pos hc]
      obtain ⟨h1, h2⟩ := emitLoopF_spec acc mv fuel (bits - 5)
        (res ++ [(acc >>> (bits - 5)) &&& mv]) (by omega)
      refine ⟨by rw [h1]; omega, ?_⟩
      rw [h2, List.length_append]
      simp only [List.length_cons, List.length_nil]
      omega
    · rw [if_neg hc]
      exact ⟨by simp; omega, by simp; omega⟩

theorem emitLoopF_mem (acc mv : Nat) :
    ∀ (fuel bits : Nat) (res : List Nat) (b : Nat),
      b ∈ (Cosmos.emitLoopF acc mv 5 fuel bits res).1 →
      b ∈ res ∨ ∃ x, b = x &&& mv
  | 0, bits, res, b, hb => Or.inl hb
  | fuel + 1, bits, res, b, hb => by
    rw [Cosmos.emitLoopF] at hb
    by_cases hc : 0 < 5 ∧ 5 ≤ bits
    · rw [if_pos hc] at hb
      rcases emitLoopF_mem acc mv fuel (bits - 5) _ b hb with hm | hm
      · rcases List.mem_append.mp hm with hm | hm
        · exact Or.inl hm
        · simp at hm
          exact Or.inr ⟨acc >>> (bits - 5), hm⟩
      · exact Or.inr hm
    · rw [if_neg hc] at hb
      exact Or.inl hb

theorem convertFold_spec (mv : Nat) :
    ∀ (data : List Nat) (st : Nat × Nat × List Nat), st.2.1 < 5 →
      (data.foldl (Cosmos.convertStep 8 5 mv) st).2.1
          = (st.2.1 + 8 * data.length) % 5
      ∧ (data.foldl (Cosmos.convertStep 8 5 mv) st).2.2.length
          = st.2.2.length + (st.2.1 + 8 * data.length) / 5
      ∧ (data.foldl (Cosmos.convertStep 8 5 mv) st).2.1 < 5
  | [], st, h => ⟨by simp; omega, by simp; omega, by simp; omega⟩
  | v :: data, st, h => by
    rw [List.foldl_cons]
    have hstep1 : (Cosmos.convertStep 8 5 mv st v).2.1 = (st.2.1 + 8) % 5 :=
      (emitLoopF_spec _ mv _ _ _ (le_refl _)).1
    have hstep2 : (Cosmos.convertStep 8 5 mv st v).2.2.length
        = st.2.2.length + (st.2.1 + 8) / 5 :=
      (emitLoopF_spec _ mv _ _ _ (le_refl _)).2
    obtain ⟨i1, i2, i3⟩ := convertFold_spec mv data (Cosmos.convertStep 8 5 mv st v)
      (by rw [hstep1]; omega)
    refine ⟨?_, ?_, ?_⟩
    · rw [i1, hstep1]
      simp only [List.length_cons]
      omega
    · rw [i2, hstep2, hstep1]
      simp only [List.length_cons]
      omega
    · exact i3

theorem convertFold_mem (mv : Nat) :
    ∀ (data : List Nat) (st : Nat × Nat × List Nat) (b : Nat),
      b ∈ (data.foldl (Cosmos.convertStep 8 5 mv) st).2.2 →
      b ∈ st.2.2 ∨ ∃ x, b = x &&& mv
  | [], st, b, hb => Or.inl hb
  | v :: data, st, b, hb => by
    rw [List.foldl_cons] at hb
    rcases convertFold_mem mv data _ b hb with hm | hm
    · exact emitLoopF_mem _ mv _ _ _ b hm
    · exact Or.inr hm

theorem convert_bits_max_v :
    ((1 <<< (5 % 32)) - 1) % 2 ^ 32 = 31 := by decide

/-- Every symbol produced by `convert_bits data 8 5 pad` is below 32. -/
theorem convert_bits_85_lt (data : List Nat) (pad : Bool) :
    ∀ b ∈ Cosmos.convert_bits data 8 5 pad, b < 32 := by
  intro b hb
  unfold Cosmos.convert_bits at hb
  rw [convert_bits_max_v] at hb
  dsimp only at hb
  have hand : ∀ x : Nat, x &&& 31 < 32 :=
    fun x => Nat.and_lt_two_pow x (show (31 : Nat) < 2 ^ 5 by norm_num)
  split at hb
  · rcases List.mem_append.mp hb with hm | hm
    · rcases convertFold_mem 31 data (0, 0, []) b hm with hm2 | ⟨x, rfl⟩
      · simp at hm2
      · exact hand x
    · simp at hm
      rw [hm]
      exact hand _
  · rcases convertFold_mem 31 data (0, 0, []) b hb with hm2 | ⟨x, rfl⟩
    · simp at hm2
    · exact hand x

/-- C6 counterexample: `convert_bits([0x01], 8, 5, false)` returns the
single complete symbol `[0]` and silently discards the 3 leftover bits —
no error condition is signalled (the function's return type has no error
channel at all), while the padding branch emits `[0, 4]`. -/
theorem convert_bits_nopad_silent :
    Cosmos.convert_bits [1] 8 5 false = [0]
    ∧ Cosmos.convert_bits [1] 8 5 true = [0, 4] :=
  ⟨rfl, rfl⟩

/-- C6 amended: with `pad = false`, insufficient leftover bits are
silently discarded rather than signalled: the function returns exactly the
`⌊8·len/5⌋` complete symbols (it has no error channel), and the `pad =
true` branch returns the same symbols followed by at most one extra padded
symbol (one more exactly when leftover bits remain). -/
theorem convert_bits_nopad_drops_leftovers :
    ∀ data : List Nat,
      (Cosmos.convert_bits data 8 5 false).length = 8 * data.length / 5
      ∧ (∃ t, Cosmos.convert_bits data 8 5 true =
          Cosmos.convert_bits data 8 5 false ++ t)
      ∧ (Cosmos.convert_bits data 8 5 true).length =
          8 * data.length / 5 + (if 8 * data.length % 5 = 0 then 0 else 1) := by
  intro data
  obtain ⟨h1, h2, _⟩ := convertFold_spec (((1 <<< (5 % 32)) - 1) % 2 ^ 32)
    data (0, 0, []) (by norm_num)
  simp only [List.length_nil, Nat.zero_add] at h1 h2
  unfold Cosmos.convert_bits
  refine ⟨?_, ?_, ?_⟩
  · rw [if_neg (by simp)]
    rw [h2]
  · by_cases hc : (true = true ∧
        (data.foldl (Cosmos.convertStep 8 5 (((1 <<< (5 % 32)) - 1) % 2 ^ 32))
          (0, 0, [])).2.1 > 0)
    · rw [if_pos hc, if_neg (by simp)]
      exact ⟨_, rfl⟩
    · rw [if_neg hc, if_neg (by simp)]
      exact ⟨[], (List.append_nil _).symm⟩
  · by_cases hc : (true = true ∧
        (data.foldl (Cosmos.convertStep 8 5 (((1 <<< (5 % 32)) - 1) % 2 ^ 32))
          (0, 0, [])).2.1 > 0)
    · rw [if_pos hc]
      simp only [List.length_append, List.length_cons, List.length_nil]
      have h3 := hc.2
      by_cases hz : 8 * data.length % 5 = 0
      · rw [if_pos hz]
        omega
      · rw [if_neg hz]
        omega
    · rw [if_neg hc]
      have h3 : ¬((data.foldl (Cosmos.convertStep 8 5 (((1 <<< (5 % 32)) - 1) % 2 ^ 32))
          (0, 0, [])).2.1 > 0) := fun hgt => hc ⟨rfl, hgt⟩
      by_cases hz : 8 * data.length % 5 = 0
      · rw [if_pos hz]
        omega
      · rw [if_neg hz]
        omega

/-! ## Bech32 checksum algebra -/

theorem shiftRight_xor (a b k : Nat) :
    (a ^^^ b) >>> k = (a >>> k) ^^^ (b >>> k) := by
  apply Nat.eq_of_testBit_eq
  intro i
  simp [Nat.testBit_shiftRight, Nat.testBit_xor]

theorem shiftLeft_xor (a b k : Nat) :
    (a ^^^ b) <<< k = (a <<< k) ^^^ (b <<< k) := by
  apply Nat.eq_of_testBit_eq
  intro i
  simp only [Nat.testBit_shiftLeft, Nat.testBit_xor]
  by_cases h : k ≤ i <;> simp [h]

theorem shiftLeft_xor_eq_add (a b k : Nat) (hb : b < 2 ^ k) :
    (a <<< k) ^^^ b = a <<< k + b := by
  have h1 : a <<< k ^^^ b = a <<< k ||| b := by
    apply Nat.eq_of_testBit_eq
    intro i
    rw [Nat.testBit_xor, Nat.testBit_or]
    by_cases hik : k ≤ i
    · have hbz : b.testBit i = false :=
        Nat.testBit_lt_two_pow
          (lt_of_lt_of_le hb (Nat.pow_le_pow_right (by norm_num) hik))
      rw [hbz]
      simp
    · have haz : (a <<< k).testBit i = false := by
        rw [Nat.testBit_shiftLeft]
        simp [hik]
      rw [haz]
      simp
  calc a <<< k ^^^ b = a <<< k ||| b := h1
    _ = 2 ^ k * a ||| b := by rw [Nat.shiftLeft_eq, Nat.mul_comm]
    _ = 2 ^ k * a + b := (Nat.mul_add_lt_is_or hb a).symm
    _ = a <<< k + b := by rw [Nat.shiftLeft_eq, Nat.mul_comm]

theorem genFold_xor (top : Nat) :
    ∀ (l : List (Nat × Nat)) (c x : Nat),
      l.foldl (fun c ig => if (top >>> ig.1) &&& 1 = 1 then c ^^^ ig.2 else c)
          (c ^^^ x)
        = l.foldl
            (fun c ig => if (top >>> ig.1) &&& 1 = 1 then c ^^^ ig.2 else c)
            c ^^^ x
  | [], c, x => rfl
  | p :: l, c, x => by
    rw [List.foldl_cons, List.foldl_cons]
    by_cases hp : (top >>> p.1) &&& 1 = 1
    · rw [if_pos hp, if_pos hp, Nat.xor_assoc, Nat.xor_comm x p.2,
        ← Nat.xor_assoc]
      exact genFold_xor top l _ x
    · rw [if_neg hp, if_neg hp]
      exact genFold_xor top l _ x

theorem genFold_lt (top : Nat) :
    ∀ (l : List (Nat × Nat)) (c : Nat), c < 2 ^ 30 →
      (∀ p ∈ l, p.2 < 2 ^ 30) →
      l.foldl (fun c ig => if (top >>> ig.1) &&& 1 = 1 then c ^^^ ig.2 else c) c
        < 2 ^ 30
  | [], c, hc, _ => hc
  | p :: l, c, hc, hl => by
    rw [List.foldl_cons]
    apply genFold_lt top l _ _ (fun q hq => hl q (List.mem_cons_of_mem p hq))
    by_cases hp : (top >>> p.1) &&& 1 = 1
    · rw [if_pos hp]
      exact Nat.xor_lt_two_pow hc (hl p (List.mem_cons_self p l))
    · rw [if_neg hp]
      exact hc

theorem polymodStep_val (chk v : Nat) :
    Cosmos.polymodStep chk v = Cosmos.polymodStep chk 0 ^^^ v := by
  unfold Cosmos.polymodStep
  dsimp only
  rw [show ((chk &&& 0x1ffffff) <<< 5) ^^^ v
      = (((chk &&& 0x1ffffff) <<< 5) ^^^ 0) ^^^ v by rw [Nat.xor_zero]]
  exact genFold_xor _ _ _ v

theorem polymodStep_xor (chk x v : Nat) (hx : x < 2 ^ 25) :
    Cosmos.polymodStep (chk ^^^ x) v = Cosmos.polymodStep chk v ^^^ (x <<< 5) := by
  unfold Cosmos.polymodStep
  dsimp only
  have htop : (chk ^^^ x) >>> 25 = chk >>> 25 := by
    rw [shiftRight_xor]
    rw [show x >>> 25 = 0 by
      rw [Nat.shiftRight_eq_div_pow]
      exact Nat.div_eq_of_lt hx]
    rw [Nat.xor_zero]
  rw [htop]
  have hand : (chk ^^^ x) &&& 0x1ffffff = (chk &&& 0x1ffffff) ^^^ x := by
    rw [Nat.and_xor_distrib_right]
    rw [show x &&& 0x1ffffff = x from by
      rw [show (0x1ffffff : Nat) = 2 ^ 25 - 1 by norm_num]
      exact Nat.and_pow_two_sub_one_of_lt_two_pow hx]
  rw [hand, shiftLeft_xor, Nat.xor_assoc, Nat.xor_comm (x <<< 5) v,
    ← Nat.xor_assoc]
  exact genFold_xor _ _ _ _

theorem polymodStep_lt {chk v : Nat} (hc : chk < 2 ^ 30) (hv : v < 2 ^ 30) :
    Cosmos.polymodStep chk v < 2 ^ 30 := by
  unfold Cosmos.polymodStep
  dsimp only
  apply genFold_lt
  · apply Nat.xor_lt_two_pow _ hv
    have h1 : chk &&& 0x1ffffff < 2 ^ 25 := by
      rw [show (0x1ffffff : Nat) = 2 ^ 25 - 1 by norm_num,
        Nat.and_pow_two_sub_one_eq_mod]
      exact Nat.mod_lt _ (by norm_num)
    rw [Nat.shiftLeft_eq]
    omega
  · decide

theorem foldl_polymod_lt :
    ∀ (values : List Nat) (chk : Nat), chk < 2 ^ 30 →
      (∀ v ∈ values, v < 2 ^ 30) →
      values.foldl Cosmos.polymodStep chk < 2 ^ 30
  | [], chk, hc, _ => hc
  | v :: values, chk, hc, hl => by
    rw [List.foldl_cons]
    exact foldl_polymod_lt values _
      (polymodStep_lt hc (hl v (List.mem_cons_self v values)))
      (fun w hw => hl w (List.mem_cons_of_mem v hw))

theorem foldl_polymod_xor :
    ∀ (cs : List Nat) (chk x : Nat), x <<< (5 * cs.length) < 2 ^ 30 →
      cs.foldl Cosmos.polymodStep (chk ^^^ x)
        = cs.foldl Cosmos.polymodStep chk ^^^ (x <<< (5 * cs.length))
  | [], chk, x, _ => by simp
  | c :: cs, chk, x, hx => by
    simp only [List.length_cons] at hx
    have hpow : x <<< (5 * (cs.length + 1)) = (x <<< 5) <<< (5 * cs.length) := by
      rw [← Nat.shiftLeft_add, show 5 + 5 * cs.length = 5 * (cs.length + 1) by ring]
    rw [hpow] at hx
    have hx25 : x < 2 ^ 25 := by
      rw [Nat.shiftLeft_eq, Nat.shiftLeft_eq] at hx
      have h32 : x * 2 ^ 5 ≤ x * 2 ^ 5 * 2 ^ (5 * cs.length) :=
        Nat.le_mul_of_pos_right _ (Nat.pos_pow_of_pos _ (by norm_num))
      have := lt_of_le_of_lt h32 hx
      omega
    rw [List.foldl_cons, List.foldl_cons, polymodStep_xor chk x c hx25,
      foldl_polymod_xor cs _ (x <<< 5) hx]
    simp only [List.length_cons]
    rw [hpow]

theorem foldl_polymod_inject :
    ∀ (cs : List Nat) (chk : Nat), cs.length ≤ 6 → (∀ c ∈ cs, c < 32) →
      cs.foldl Cosmos.polymodStep chk
        = (List.replicate cs.length 0).foldl Cosmos.polymodStep chk
            ^^^ encodeSyms cs
  | [], chk, _, _ => by simp [encodeSyms]
  | c :: cs, chk, hlen, hall => by
    simp only [List.length_cons] at hlen
    have hc32 : c < 32 := hall c (List.mem_cons_self _ _)
    have hshift : c <<< (5 * cs.length) < 2 ^ 30 := by
      rw [Nat.shiftLeft_eq]
      have hle : (2 : Nat) ^ (5 * cs.length) ≤ 2 ^ 25 :=
        Nat.pow_le_pow_right (by norm_num) (by omega)
      calc c * 2 ^ (5 * cs.length) ≤ 31 * 2 ^ 25 :=
            Nat.mul_le_mul (by omega) hle
        _ < 2 ^ 30 := by norm_num
    rw [List.foldl_cons, polymodStep_val chk c,
      foldl_polymod_xor cs _ c hshift,
      foldl_polymod_inject cs (Cosmos.polymodStep chk 0) (by omega)
        (fun d hd => hall d (List.mem_cons_of_mem _ hd)),
      show List.replicate (c :: cs).length 0
          = 0 :: List.replicate cs.length 0 from rfl,
      List.foldl_cons, encodeSyms, Nat.xor_assoc,
      Nat.xor_comm (encodeSyms cs) (c <<< (5 * cs.length)), ← Nat.xor_assoc]

theorem mul_pow_xor_eq_add (a b k : Nat) (hb : b < 2 ^ k) :
    (a * 2 ^ k) ^^^ b = a * 2 ^ k + b := by
  have h := shiftLeft_xor_eq_add a b k hb
  rwa [Nat.shiftLeft_eq] at h

/-- Reading the six checksum symbols extracted from a 30-bit polymod value
back as one integer recovers that value. -/
theorem encode_checksum_digits (P : Nat) (hP : P < 2 ^ 30) :
    encodeSyms ((List.range 6).map (fun i => (P >>> (5 * (5 - i))) &&& 31))
      = P := by
  show encodeSyms [(P >>> 25) &&& 31, (P >>> 20) &&& 31, (P >>> 15) &&& 31,
    (P >>> 10) &&& 31, (P >>> 5) &&& 31, (P >>> 0) &&& 31] = P
  have hmod : ∀ x : Nat, x &&& 31 = x % 32 := fun x => by
    rw [show (31 : Nat) = 2 ^ 5 - 1 by norm_num, Nat.and_pow_two_sub_one_eq_mod]
  have hdiv : ∀ k : Nat, P >>> k = P / 2 ^ k := fun k =>
    Nat.shiftRight_eq_div_pow P k
  rw [encodeSyms, encodeSyms, encodeSyms, encodeSyms, encodeSyms, encodeSyms,
    encodeSyms]
  simp only [List.length_cons, List.length_nil]
  rw [hmod, hmod, hmod, hmod, hmod, hmod, hdiv, hdiv, hdiv, hdiv, hdiv, hdiv]
  norm_num
  simp only [Nat.shiftLeft_eq]
  rw [mul_pow_xor_eq_add _ _ 5 (by omega)]
  rw [mul_pow_xor_eq_add _ _ 10 (by omega)]
  rw [mul_pow_xor_eq_add _ _ 15 (by omega)]
  rw [mul_pow_xor_eq_add _ _ 20 (by omega)]
  rw [mul_pow_xor_eq_add _ _ 25 (by omega)]
  omega

theorem hrp_expand_lt (hrp : List Char) :
    ∀ v ∈ Cosmos.bech32_hrp_expand hrp, v < 2 ^ 30 := by
  intro v hv
  unfold Cosmos.bech32_hrp_expand at hv
  rcases List.mem_append.mp hv with h | h
  · rcases List.mem_append.mp h with h | h
    · obtain ⟨c, _, rfl⟩ := List.mem_map.mp h
      have h1 : (c.toNat % 256) >>> 5 ≤ c.toNat % 256 := by
        rw [Nat.shiftRight_eq_div_pow]
        exact Nat.div_le_self _ _
      have h2 : c.toNat % 256 < 256 := Nat.mod_lt _ (by norm_num)
      omega
    · simp at h
      omega
  · obtain ⟨c, _, rfl⟩ := List.mem_map.mp h
    have := Nat.and_lt_two_pow (c.toNat % 256) (show (31 : Nat) < 2 ^ 5 by norm_num)
    omega

theorem bech32_checksum_mem (hrp : List Char) (data : List Nat) :
    ∀ b ∈ Cosmos.bech32_checksum hrp data, b < 32 := by
  intro b hb
  unfold Cosmos.bech32_checksum at hb
  dsimp only at hb
  obtain ⟨i, _, rfl⟩ := List.mem_map.mp hb
  exact Nat.and_lt_two_pow _ (show (31 : Nat) < 2 ^ 5 by norm_num)

theorem bech32_polymod_append (a b : List Nat) :
    Cosmos.bech32_polymod (a ++ b)
      = b.foldl Cosmos.polymodStep (Cosmos.bech32_polymod a) := by
  unfold Cosmos.bech32_polymod
  exact List.foldl_append _ _ _ _

/-- The checksum round-trip: the polymod over expanded HRP, data, and the
six checksum symbols always evaluates to 1. -/
theorem bech32_verify_one (hrp : List Char) (bits : List Nat)
    (hbits : ∀ b ∈ bits, b < 32) :
    Cosmos.bech32_polymod (Cosmos.bech32_hrp_expand hrp ++ bits
      ++ Cosmos.bech32_checksum hrp bits) = 1 := by
  have hZlt : Cosmos.bech32_polymod
      (Cosmos.bech32_hrp_expand hrp ++ bits ++ List.replicate 6 0) < 2 ^ 30 := by
    unfold Cosmos.bech32_polymod
    apply foldl_polymod_lt _ 1 (by norm_num)
    intro v hv
    rcases List.mem_append.mp hv with h | h
    · rcases List.mem_append.mp h with h | h
      · exact hrp_expand_lt hrp v h
      · have := hbits v h
        omega
    · simp at h
      omega
  have hPlt : Cosmos.bech32_polymod
      (Cosmos.bech32_hrp_expand hrp ++ bits ++ List.replicate 6 0) ^^^ 1
        < 2 ^ 30 :=
    Nat.xor_lt_two_pow hZlt (by norm_num)
  have hcs : Cosmos.bech32_checksum hrp bits
      = (List.range 6).map (fun i =>
          ((Cosmos.bech32_polymod (Cosmos.bech32_hrp_expand hrp ++ bits
              ++ List.replicate 6 0) ^^^ 1) >>> (5 * (5 - i))) &&& 31) := rfl
  rw [bech32_polymod_append, hcs]
  rw [foldl_polymod_inject _ _ (by simp)
    (fun c hc => by
      obtain ⟨i, _, rfl⟩ := List.mem_map.mp hc
      exact Nat.and_lt_two_pow _ (show (31 : Nat) < 2 ^ 5 by norm_num))]
  rw [show ((List.range 6).map (fun i =>
      ((Cosmos.bech32_polymod (Cosmos.bech32_hrp_expand hrp ++ bits
          ++ List.replicate 6 0) ^^^ 1) >>> (5 * (5 - i))) &&& 31)).length = 6
    by simp]
  rw [show (List.replicate 6 0).foldl Cosmos.polymodStep
      (Cosmos.bech32_polymod (Cosmos.bech32_hrp_expand hrp ++ bits))
    = Cosmos.bech32_polymod (Cosmos.bech32_hrp_expand hrp ++ bits
      ++ List.replicate 6 0) from (bech32_polymod_append _ _).symm]
  rw [encode_checksum_digits _ hPlt]
  rw [← Nat.xor_assoc, Nat.xor_self, Nat.zero_xor]

theorem charset_get?_eq {b : Nat} (hb : b < 32) :
    Cosmos.CHARSET.get? b = some (Cosmos.CHARSET.getD b ' ') := by
  rcases hg : Cosmos.CHARSET.get? b with _ | c
  · have h1 := List.get?_eq_none.mp hg
    rw [show Cosmos.CHARSET.length = 32 from rfl] at h1
    omega
  · rw [List.getD_eq_get?, hg]
    rfl

theorem mapM_charset :
    ∀ {l : List Nat}, (∀ b ∈ l, b < 32) →
      l.mapM (fun b => Cosmos.CHARSET.get? b)
        = some (l.map (fun b => Cosmos.CHARSET.getD b ' '))
  | [], _ => by rw [List.mapM_nil]; rfl
  | b :: l, h => by
    rw [List.mapM_cons, charset_get?_eq (h b (List.mem_cons_self _ _)),
      mapM_charset (fun d hd => h d (List.mem_cons_of_mem _ hd))]
    rfl

/-- Every symbol reaching the alphabet map in `encode_bech32` is below 32. -/
theorem encode_symbols_lt (hrp : List Char) (data : List Nat) :
    ∀ b ∈ Cosmos.convert_bits data 8 5 true
      ++ Cosmos.bech32_checksum hrp (Cosmos.convert_bits data 8 5 true),
      b < 32 := by
  intro b hb
  rcases List.mem_append.mp hb with h | h
  · exact convert_bits_85_lt data true b h
  · exact bech32_checksum_mem hrp _ b h

/-- C9: Bech32 encoding never fails at the alphabet lookup — every symbol
value (payload and checksum) is strictly below 32, so the per-symbol
character lookup always succeeds and the encoder always returns a string. -/
theorem bech32_encode_total :
    ∀ (hrp : List Char) (data : List Nat),
      ((Cosmos.convert_bits data 8 5 true
          ++ Cosmos.bech32_checksum hrp (Cosmos.convert_bits data 8 5 true)).all
        (fun b => decide (b < 32))) = true
      ∧ (Cosmos.encode_bech32 hrp data).isSome = true := by
  intro hrp data
  constructor
  · exact List.all_eq_true.mpr
      (fun b hb => decide_eq_true (encode_symbols_lt hrp data b hb))
  · unfold Cosmos.encode_bech32
    dsimp only
    rw [mapM_charset (encode_symbols_lt hrp data)]
    rfl

/-- C2 counterexample: with HRP `cosmos` and the repository's own 20-byte
test hash, the polymod over expanded HRP ‖ payload symbols ‖ checksum
symbols evaluates to 1, not to 0 as the claim requires. -/
theorem bech32_checksum_verification_not_zero :
    Cosmos.bech32_check_value "cosmos".toList
      [0x75, 0x1e, 0x76, 0xe8, 0x19, 0x91, 0x96, 0xd4, 0x54, 0x94,
       0x1c, 0x45, 0xd1, 0xb3, 0xa3, 0x23, 0xf1, 0x43, 0x3b, 0xd6] ≠ 0 := by
  set_option maxRecDepth 100000 in decide

/-- C2 amended: for every HRP and payload the encoder produces
`hrp ‖ "1" ‖ alphabet-mapped (payload symbols ‖ checksum symbols)`, and the
codec's checksum round-trip — the polymod over expanded HRP, 5-bit data,
and the six checksum symbols — equals 1 (the plain-Bech32 constant), not 0. -/
theorem bech32_encode_shape_and_checksum :
    ∀ (hrp : List Char) (payload : List Nat),
      Cosmos.encode_bech32 hrp payload
        = some (hrp ++ ['1']
            ++ (Cosmos.convert_bits payload 8 5 true
              ++ Cosmos.bech32_checksum hrp
                  (Cosmos.convert_bits payload 8 5 true)).map
              (fun b => Cosmos.CHARSET.getD b ' '))
      ∧ Cosmos.bech32_check_value hrp payload = 1 := by
  intro hrp payload
  constructor
  · unfold Cosmos.encode_bech32
    dsimp only
    rw [mapM_charset (encode_symbols_lt hrp payload)]
    rfl
  · unfold Cosmos.bech32_check_value
    dsimp only
    exact bech32_verify_one hrp _ (convert_bits_85_lt payload true)
